import Mathlib

/-!
Verification development for the Mesos master allocator sources:
the DRF sorter (`src/master/drf_sorter.cpp`) and the quota handler
(`src/master/quota_handler.cpp`, `src/master/quota.cpp`).

The C++ code is shallowly embedded: `double` arithmetic on shares and
scalar resource values is modelled with exact rationals, the
`std::set<Client, DRFComparator>` is modelled as a strictly sorted list
(insertion is a no-op on an equivalent element, exactly as for the C++
set), and `hashmap` members are modelled as association lists (all
observations are keyed lookups, so the bucket order is irrelevant).
The `Resources` value type is an external collaborator of these files;
only the operations the embedded functions use (`+=`, `-=`,
`get<Value::Scalar>`, iteration over entries, `contains`, `unreserved`)
are modelled, following their documented multiset semantics: addition
coalesces entries that agree on name, role and (scalar) type and drops
empty (zero-valued) scalar entries; subtraction updates the first
matching entry and erases it when it becomes empty.
-/

namespace MesosSpec

/-- Value of a single `Resource` entry: either a scalar (`Value::SCALAR`,
modelled exactly as a rational) or a non-scalar value (ranges/sets),
abstracted to a tag since the embedded code never inspects it. -/
inductive SVal where
  | scalar (v : ℚ)
  | nonscalar (tag : ℕ)
deriving DecidableEq, Repr

/-- Whether an `SVal` is a scalar. -/
def SVal.isScalar : SVal → Bool
  | .scalar _ => true
  | .nonscalar _ => false

/-- One `Resource` entry as the sorter sees it: a name (e.g. "cpus"),
the role annotation carried by the protobuf (default role is "*"),
and its value. -/
structure SResource where
  name : String
  role : String
  val : SVal
deriving DecidableEq, Repr

/-- A `Resources` collection: a list of entries. -/
abbrev Resources := List SResource

namespace Resources

/-- Mesos `Resources` treats a scalar entry of value 0 as empty; empty
entries are never stored. -/
def isEmptyRes (r : SResource) : Bool :=
  match r.val with
  | .scalar v => v = 0
  | .nonscalar _ => false

/-- Two entries are addable (coalesced by `+=`) when they agree on name,
role and both are scalars (non-scalar merging is never observed by the
embedded code and is modelled as plain append). -/
def addableScalar (x : SResource) (n ro : String) : Bool :=
  x.name = n && x.role = ro && x.val.isScalar

/-- Add the scalar quantity `v` to the first entry addable with
name `n`, role `ro`. -/
def mergeFirst : Resources → String → String → ℚ → Resources
  | [], _, _, _ => []
  | x :: xs, n, ro, v =>
    if addableScalar x n ro then
      { x with val := match x.val with
                      | .scalar w => .scalar (w + v)
                      | nv => nv } :: xs
    else
      x :: mergeFirst xs n ro v

/-- Fold one entry of the right-hand side into the accumulated
collection, as `Resources::operator+=` does per entry. -/
def addOne (acc : Resources) (r : SResource) : Resources :=
  match r.val with
  | .scalar v =>
    if v = 0 then acc
    else if acc.any (fun x => addableScalar x r.name r.role) then
      mergeFirst acc r.name r.role v
    else acc ++ [r]
  | .nonscalar _ => acc ++ [r]

/-- `Resources` addition (`+=`). -/
def add (a b : Resources) : Resources := b.foldl addOne a

/-- Subtract the scalar quantity `v` from the first addable entry,
erasing it when it becomes empty; a no-op when no entry matches. -/
def subFirst : Resources → String → String → ℚ → Resources
  | [], _, _, _ => []
  | x :: xs, n, ro, v =>
    if addableScalar x n ro then
      match x.val with
      | .scalar w => if w - v = 0 then xs else { x with val := .scalar (w - v) } :: xs
      | _ => x :: xs
    else
      x :: subFirst xs n ro v

/-- Erase the first non-scalar entry equal to the given one. -/
def removeFirstNS : Resources → SResource → Resources
  | [], _ => []
  | x :: xs, r => if x = r then xs else x :: removeFirstNS xs r

/-- Fold one entry of the right-hand side out of the accumulated
collection, as `Resources::operator-=` does per entry. -/
def subOne (acc : Resources) (r : SResource) : Resources :=
  match r.val with
  | .scalar v => if v = 0 then acc else subFirst acc r.name r.role v
  | .nonscalar _ => removeFirstNS acc r

/-- `Resources` subtraction (`-=`). -/
def sub (a b : Resources) : Resources := b.foldl subOne a

/-- The scalar values of entries named `n`. -/
def scalarValuesOf (rs : Resources) (n : String) : List ℚ :=
  rs.filterMap fun r =>
    match r.val with
    | .scalar v => if r.name = n then some v else none
    | .nonscalar _ => none

/-- `Resources::get<Value::Scalar>(name)`: the sum of the scalar entries
carrying the given name (across roles), or `none` when there is no such
entry. -/
def getScalar (rs : Resources) (n : String) : Option ℚ :=
  match scalarValuesOf rs n with
  | [] => none
  | v :: vs => some (vs.foldl (· + ·) v)

end Resources

/-- A sorter client as stored in the `std::set`: name, last computed
share and the cumulative count of allocations made to it. -/
structure Client where
  name : String
  share : ℚ
  allocations : ℕ
deriving DecidableEq, Repr

/-- The strict weak order `DRFComparator::operator()` from
`drf_sorter.cpp`: lower share first, ties by fewer allocations, then
lexically smaller name. -/
def DRFComparator (c1 c2 : Client) : Bool :=
  if c1.share = c2.share then
    if c1.allocations = c2.allocations then decide (c1.name < c2.name)
    else decide (c1.allocations < c2.allocations)
  else decide (c1.share < c2.share)

/-- Insertion into `std::set<Client, DRFComparator>`: keep the list
sorted; when an equivalent element (neither strictly less) is present,
insertion is a no-op. -/
def setInsert (c : Client) : List Client → List Client
  | [] => [c]
  | x :: xs =>
    if DRFComparator c x then c :: x :: xs
    else if DRFComparator x c then x :: setInsert c xs
    else x :: xs

/-- `DRFSorter::find(name)` followed by `erase`: drop the first element
with the given name (sorted sets are iterated in order, so `find`
returns the first match); a no-op when no element matches. -/
def eraseFirstName (n : String) : List Client → List Client
  | [] => []
  | x :: xs => if x.name = n then xs else x :: eraseFirstName n xs

/-- `DRFSorter::find(name)` as an option: the first element with the
given name in iteration order. -/
def findFirstName (n : String) (l : List Client) : Option Client :=
  l.find? (fun c => c.name = n)

/-- Lookup in an association list modelling a `hashmap`, with the
default value a `hashmap::operator[]` would default-construct. -/
def assocGetD {β : Type} (l : List (String × β)) (k : String) (d : β) : β :=
  match l.find? (fun p => p.1 = k) with
  | some p => p.2
  | none => d

/-- `hashmap::operator[] = v`: overwrite the binding for `k`, or append
a fresh one. -/
def assocSet {β : Type} (l : List (String × β)) (k : String) (v : β) : List (String × β) :=
  match l with
  | [] => [(k, v)]
  | p :: ps => if p.1 = k then (k, v) :: ps else p :: assocSet ps k v

/-- `hashmap::operator[]` default-constructing then applying `f`
(as in `allocations[name] += resources`). -/
def assocUpd {β : Type} (l : List (String × β)) (k : String) (d : β) (f : β → β) :
    List (String × β) :=
  assocSet l k (f (assocGetD l k d))

/-- Whether the association list binds the key (`hashmap::contains`). -/
def assocHas {β : Type} (l : List (String × β)) (k : String) : Bool :=
  l.any (fun p => p.1 = k)

/-- State of a `DRFSorter`: the client set, the `allocations` and
`weights` hashmaps, the total resource pool and the `dirty` flag. -/
structure SorterState where
  clients : List Client
  allocations : List (String × Resources)
  weights : List (String × ℚ)
  resources : Resources
  dirty : Bool
deriving DecidableEq, Repr

namespace DRFSorter

/-- The cumulative allocation recorded for a client
(`allocations[name]`, defaulting to an empty `Resources`). -/
def allocOf (s : SorterState) (n : String) : Resources :=
  assocGetD s.allocations n []

/-- The weight recorded for a client (`weights[name]`, defaulting to a
default-constructed `double`, i.e. 0). -/
def weightOf (s : SorterState) (n : String) : ℚ :=
  assocGetD s.weights n 0

/-- `DRFSorter::calculateShare`: fold over the entries of the total
pool; every scalar entry with positive value contributes
(client's total scalar allocation of that name) / (entry value) to a
running maximum, which is finally divided by the client's weight. -/
def calculateShare (s : SorterState) (n : String) : ℚ :=
  let share := s.resources.foldl
    (fun sh r =>
      match r.val with
      | .scalar total =>
        if 0 < total then
          max sh (((Resources.getScalar (allocOf s n) r.name).getD 0) / total)
        else sh
      | .nonscalar _ => sh)
    0
  share / weightOf s n

/-- `DRFSorter::add(name, weight)`. -/
def addClient (s : SorterState) (n : String) (w : ℚ) : SorterState :=
  { s with
    clients := setInsert ⟨n, 0, 0⟩ s.clients
    allocations := assocSet s.allocations n []
    weights := assocSet s.weights n w }

/-- `DRFSorter::remove(name)`. -/
def removeClient (s : SorterState) (n : String) : SorterState :=
  { s with
    clients := eraseFirstName n s.clients
    allocations := s.allocations.filter (fun p => ¬ p.1 = n)
    weights := s.weights.filter (fun p => ¬ p.1 = n) }

/-- `DRFSorter::activate(name)`: reinsert the client with the share
recomputed now and the allocation counter reset to zero (the `CHECK`
that `allocations` contains the name is carried as a hypothesis by the
theorems below). -/
def activate (s : SorterState) (n : String) : SorterState :=
  { s with clients := setInsert ⟨n, calculateShare s n, 0⟩ s.clients }

/-- `DRFSorter::deactivate(name)`: erase the client's entry when
present. -/
def deactivate (s : SorterState) (n : String) : SorterState :=
  { s with clients := eraseFirstName n s.clients }

/-- `DRFSorter::update(name)`: recompute the share of the first client
entry with the given name and reposition it. -/
def update (s : SorterState) (n : String) : SorterState :=
  match findFirstName n s.clients with
  | some c =>
    { s with clients :=
        setInsert { c with share := calculateShare s n } (eraseFirstName n s.clients) }
  | none => s

/-- First step of `DRFSorter::allocated`: when the client's entry is
present, bump its allocation counter and reposition it (erase and
reinsert). -/
def bumpCounter (s : SorterState) (n : String) : SorterState :=
  match findFirstName n s.clients with
  | some c =>
    { s with clients :=
        setInsert { c with allocations := c.allocations + 1 } (eraseFirstName n s.clients) }
  | none => s

/-- `DRFSorter::allocated(name, resources)`: bump the client's
allocation counter (when its entry is present), add the resources to
its cumulative allocation, and reposition it via `update` unless a
global recompute is pending. -/
def allocated (s : SorterState) (n : String) (rs : Resources) : SorterState :=
  let s1 := bumpCounter s n
  let s2 := { s1 with allocations := assocUpd s1.allocations n [] (fun old => old.add rs) }
  if s2.dirty then s2 else update s2 n

/-- `DRFSorter::unallocated(name, resources)`. -/
def unallocated (s : SorterState) (n : String) (rs : Resources) : SorterState :=
  let s2 := { s with allocations := assocUpd s.allocations n [] (fun old => old.sub rs) }
  if s2.dirty then s2 else update s2 n

/-- `DRFSorter::allocation(name)`. -/
def allocation (s : SorterState) (n : String) : Resources :=
  allocOf s n

/-- `DRFSorter::add(resources)` on the total pool: marks the sorter
dirty. -/
def poolAdd (s : SorterState) (rs : Resources) : SorterState :=
  { s with resources := s.resources.add rs, dirty := true }

/-- `DRFSorter::remove(resources)` on the total pool. -/
def poolRemove (s : SorterState) (rs : Resources) : SorterState :=
  { s with resources := s.resources.sub rs, dirty := true }

/-- The client set rebuilt by the dirty branch of `DRFSorter::sort`:
every client is reinserted with its share recomputed against the
current pool. -/
def rebuildClients (s : SorterState) : List Client :=
  s.clients.foldl (fun acc c => setInsert { c with share := calculateShare s c.name } acc) []

/-- The client list `DRFSorter::sort` iterates to produce its result
(the rebuilt set when dirty, the stored set otherwise). -/
def sortClients (s : SorterState) : List Client :=
  if s.dirty then rebuildClients s else s.clients

/-- The list of names returned by `DRFSorter::sort`. -/
def sortNames (s : SorterState) : List String :=
  (sortClients s).map (fun c => c.name)

/-- `DRFSorter::contains(name)`. -/
def containsClient (s : SorterState) (n : String) : Bool :=
  assocHas s.allocations n

/-- The freshly constructed sorter. The class definition
(`drf_sorter.hpp`) is not under `src/`; the spec describes `dirty` as
set when the pool changes, so the initial state starts clean with
every container empty. -/
def initState : SorterState :=
  { clients := [], allocations := [], weights := [], resources := [], dirty := false }

/-- The operations of claim C1: client registration, per-client
allocation bookkeeping and total-pool changes. -/
inductive Op where
  | addClient (n : String) (w : ℚ)
  | alloc (n : String) (rs : Resources)
  | unalloc (n : String) (rs : Resources)
  | poolAdd (rs : Resources)
  | poolRemove (rs : Resources)
deriving DecidableEq, Repr

/-- Apply one operation. -/
def applyOp (s : SorterState) : Op → SorterState
  | .addClient n w => addClient s n w
  | .alloc n rs => allocated s n rs
  | .unalloc n rs => unallocated s n rs
  | .poolAdd rs => poolAdd s rs
  | .poolRemove rs => poolRemove s rs

/-- Apply a sequence of operations from the left. -/
def applyOps (s : SorterState) (ops : List Op) : SorterState :=
  ops.foldl applyOp s

/-- The per-client updates of claim C4: `allocated`/`unallocated` only,
with no intervening pool change. -/
inductive UOp where
  | alloc (n : String) (rs : Resources)
  | unalloc (n : String) (rs : Resources)
deriving DecidableEq, Repr

/-- Apply one per-client update. -/
def applyUOp (s : SorterState) : UOp → SorterState
  | .alloc n rs => allocated s n rs
  | .unalloc n rs => unallocated s n rs

/-- Apply a sequence of per-client updates from the left. -/
def applyUOps (s : SorterState) (ops : List UOp) : SorterState :=
  ops.foldl applyUOp s

end DRFSorter

/-- The names of the stored client entries, in set order. -/
def namesOf (l : List Client) : List String :=
  l.map (fun c => c.name)

/-- The strict order `DRFComparator` decides, as a proposition. -/
def cLt (a b : Client) : Prop :=
  DRFComparator a b = true

/-- The lexicographic strict order on (share, allocations, name) triples
that `DRFComparator` decides. -/
def shareKeyLt (a b : ℚ × ℕ × String) : Prop :=
  a.1 < b.1 ∨ (a.1 = b.1 ∧ (a.2.1 < b.2.1 ∨ (a.2.1 = b.2.1 ∧ a.2.2 < b.2.2)))

/-- The fairness key of a stored client, with the share recomputed
against the current state (total pool, allocations, weights). -/
def currentKey (s : SorterState) (c : Client) : ℚ × ℕ × String :=
  (DRFSorter.calculateShare s c.name, c.allocations, c.name)

/-- Every stored share agrees with a from-scratch recomputation against
the current state: the stored shares are exactly the shares the dirty
branch of `sort()` would compute. -/
def ShareConsistent (s : SorterState) : Prop :=
  ∀ c ∈ s.clients, c.share = DRFSorter.calculateShare s c.name

/-- A `Resources` value maintaining the representation invariant of the
Mesos `Resources` class: no empty (zero scalar) entries and no two
entries that addition would have coalesced. -/
def Normalized (rs : Resources) : Prop :=
  (∀ r ∈ rs, Resources.isEmptyRes r = false) ∧
    rs.Pairwise (fun a b => Resources.addableScalar a b.name b.role = false)

instance (rs : Resources) : Decidable (Normalized rs) := by
  unfold Normalized
  infer_instance

/-- The share formula as the spec words it (claim C5): the maximum over
scalar resource kinds (names) in the pool whose per-kind total is
positive of (client's allocation of the kind) / (per-kind total),
divided by the client's weight. -/
def specCalculateShare (s : SorterState) (n : String) : ℚ :=
  let kinds := (s.resources.filter (fun r => r.val.isScalar)).map (fun r => r.name)
  let ratios := kinds.dedup.map (fun k =>
    let total := (Resources.scalarValuesOf s.resources k).sum
    if 0 < total then ((Resources.getScalar (DRFSorter.allocOf s n) k).getD 0) / total
    else 0)
  (ratios.foldl max 0) / DRFSorter.weightOf s n

/- ===== Quota handler model (`quota_handler.cpp`, `quota.cpp`) ===== -/

/-- Scalar resource quantities as the quota code observes them: a list
of (name, amount) entries. Quota guarantees are validated to be
scalar-only, and the agent resources entering the capacity heuristic
are compared against them only through `contains`, which for scalar
resources of one role is a per-name quantity comparison. -/
abbrev SRes := List (String × ℚ)

namespace SRes

/-- Total amount of the kind `n` in the collection. -/
def amount (r : SRes) (n : String) : ℚ :=
  ((r.filter (fun p => p.1 = n)).map (fun p => p.2)).sum

/-- The kind names occurring in the collection. -/
def names (r : SRes) : List String := r.map (fun p => p.1)

/-- `Resources::contains`: `a` holds at least as much of every kind that
occurs in `b`. -/
def contains (a b : SRes) : Prop :=
  ∀ n ∈ names b, amount b n ≤ amount a n

instance (a b : SRes) : Decidable (contains a b) := by
  unfold contains; infer_instance

end SRes

/-- One entry of an agent's static (`SlaveInfo`) resources: kind name,
role annotation ("*" when unreserved) and scalar amount. -/
structure AgentRes where
  name : String
  role : String
  value : ℚ
deriving DecidableEq, Repr

/-- `Resources(slave->info.resources()).unreserved()`: the entries whose
role is "*", i.e. not statically reserved. -/
def unreservedOf (info : List AgentRes) : SRes :=
  (info.filter (fun r => r.role = "*")).map (fun r => (r.name, r.value))

/-- An agent as the capacity heuristic observes it. -/
structure Agent where
  connected : Bool
  active : Bool
  info : List AgentRes
deriving DecidableEq, Repr

/-- Master state entering `capacityHeuristic`: the registered agents (in
iteration order) and the guarantees of the existing quotas. -/
structure QuotaClusterState where
  agents : List Agent
  quotaGuarantees : List SRes
deriving DecidableEq, Repr

/-- The total quota: the request's guarantee plus all existing
guarantees. -/
def totalQuota (g : SRes) (st : QuotaClusterState) : SRes :=
  st.quotaGuarantees.foldl (fun a b => a ++ b) g

/-- The error message returned when the capacity heuristic fails. -/
def insufficientCapacityMsg : String :=
  "Not enough available cluster capacity to reasonably satisfy quota request; the force flag can be used to override this check"

/-- The agent loop of `Master::QuotaHandler::capacityHeuristic`: skip
agents that are not both connected and active, accumulate each
remaining agent's unreserved static resources, return success as soon
as the accumulation contains the total quota, and return the
insufficient-capacity error when the agents run out. -/
def capacityHeuristicLoop (tq : SRes) : List Agent → SRes → Option String
  | [], _ => some insufficientCapacityMsg
  | a :: rest, acc =>
    if ¬(a.connected = true ∧ a.active = true) then capacityHeuristicLoop tq rest acc
    else
      let acc' := acc ++ unreservedOf a.info
      if SRes.contains acc' tq then none else capacityHeuristicLoop tq rest acc'

/-- `Master::QuotaHandler::capacityHeuristic`: `none` means the check
passed, `some msg` carries the error. -/
def capacityHeuristic (g : SRes) (st : QuotaClusterState) : Option String :=
  capacityHeuristicLoop (totalQuota g st) st.agents []

/-- The unreserved resources of the connected and active agents of a
list, in iteration order. -/
def activeUnreservedList (agents : List Agent) : List SRes :=
  (agents.filter (fun a => a.connected && a.active)).map (fun a => unreservedOf a.info)

/-- The unreserved resources of the connected and active agents, in
iteration order. -/
def activeUnreserved (st : QuotaClusterState) : List SRes :=
  activeUnreservedList st.agents

/-- A one-agent cluster (cpus:2 unreserved, no existing quotas) used to
witness the capacity-heuristic monotonicity. -/
def c8Cluster : QuotaClusterState :=
  { agents := [{ connected := true, active := true, info := [⟨"cpus", "*", 2⟩] }]
    quotaGuarantees := [] }

/-- A framework of the request's role, as `rescindOffers` counts them. -/
structure RoleFramework where
  connected : Bool
  active : Bool
deriving DecidableEq, Repr

/-- An agent as `rescindOffers` observes it: connectivity and the
resources of its outstanding offers. -/
structure OfferAgent where
  connected : Bool
  active : Bool
  offers : List SRes
deriving DecidableEq, Repr

/-- The agent loop of `Master::QuotaHandler::rescindOffers`: break once
the rescinded resources contain the guarantee and at least as many
agents were visited as there are frameworks in the role; skip agents
that are not connected and active; otherwise rescind every outstanding
offer of the agent (counting it as visited when it had any). Returns
the accumulated rescinded resources and the agents in their final
state. -/
def rescindLoop (g : SRes) (numFiR : Nat) :
    List OfferAgent → SRes → Nat → SRes × List OfferAgent
  | [], resc, _ => (resc, [])
  | a :: rest, resc, visited =>
    if SRes.contains resc g ∧ numFiR ≤ visited then (resc, a :: rest)
    else if ¬(a.connected = true ∧ a.active = true) then
      let r := rescindLoop g numFiR rest resc visited
      (r.1, a :: r.2)
    else
      let resc' := a.offers.foldl (fun x y => x ++ y) resc
      let visited' := if a.offers.isEmpty then visited else visited + 1
      let r := rescindLoop g numFiR rest resc' visited'
      (r.1, { a with offers := [] } :: r.2)

/-- `Master::QuotaHandler::rescindOffers`: count the connected and
active frameworks in the request's role, then run the agent loop with
no resources rescinded yet. -/
def rescindOffers (g : SRes) (frameworks : List RoleFramework)
    (agents : List OfferAgent) : SRes × List OfferAgent :=
  let numFiR := (frameworks.filter (fun f => f.connected && f.active)).length
  rescindLoop g numFiR agents [] 0

/- ===== Quota request creation and validation ===== -/

/-- The value type of a protobuf `Resource` (`Value::Type`); the quota
code only distinguishes scalar from non-scalar. -/
inductive RType where
  | scalar
  | ranges
  | set
deriving DecidableEq, Repr

/-- A protobuf `Resource` as the quota request path observes it. The
`role` field is optional with default "*": `has_role()` is `isSome`,
`role()` reads through the default, and `clear_role()` resets it to
`none`. -/
structure PResource where
  name : String
  rtype : RType
  scalarValue : ℚ
  role : Option String
  reservation : Bool
  disk : Bool
  revocable : Bool
deriving DecidableEq, Repr

/-- `Resource::role()`: the stored role or the protobuf default "*". -/
def PResource.roleGet (r : PResource) : String :=
  r.role.getD "*"

/-- `Resource::clear_role()`. -/
def PResource.clearRole (r : PResource) : PResource :=
  { r with role := none }

/-- The `QuotaInfo` protobuf: a role and the guarantee resources. -/
structure QuotaInfoP where
  role : String
  guarantee : List PResource
deriving DecidableEq, Repr

/-- Error message constants of `createQuotaInfo` and
`quota::validation::quotaInfo` (role names are omitted from the
messages; only which error fires matters to the claims). -/
def errDifferentRolesCreate : String :=
  "Resources with different roles"

/-- Error for a structurally invalid resource. -/
def errInvalidResource : String :=
  "Quota request with invalid resource"

/-- Error for a resource carrying `ReservationInfo`. -/
def errReservation : String :=
  "Quota request may not contain ReservationInfo"

/-- Error for a resource carrying `DiskInfo`. -/
def errDisk : String :=
  "Quota request may not contain DiskInfo"

/-- Error for a resource carrying `RevocableInfo`. -/
def errRevocable : String :=
  "Quota request may not contain RevocableInfo"

/-- Error for a non-scalar resource. -/
def errNonScalar : String :=
  "Quota request may not include non-scalar resources"

/-- Error for a resource with no role set. -/
def errNoRole : String :=
  "Quota request without role specified"

/-- Error for a resource with an empty role. -/
def errEmptyRole : String :=
  "Quota request with empty role specified"

/-- Error for resources with differing roles in validation. -/
def errDifferentRolesValidate : String :=
  "Quota request with different roles"

/-- `createQuotaInfo` (`quota_handler.cpp`): pick the first resource's
role (the protobuf default when the list is empty leaves the role
field's default empty string), reject when any resource's role
differs, then clear the role from every resource and store the list as
the guarantee. -/
def createQuotaInfo (resources : List PResource) : Except String QuotaInfoP :=
  let qrole := match resources with
    | [] => ""
    | r :: _ => r.roleGet
  if resources.any (fun r => ¬ r.roleGet = qrole) then
    .error errDifferentRolesCreate
  else
    .ok { role := qrole, guarantee := resources.map PResource.clearRole }

/-- Modelled from the spec: `Resources::validate` lives in the external
`Resources` value type (`src/common/resources.cpp` is not under
`src/`); per the spec's resource-arithmetic collaborator a resource is
structurally valid when its name is non-empty and a scalar value is
non-negative. The claims touched by it only need that the concrete
well-formed resources used below pass. -/
def resourceValidationError (r : PResource) : Option String :=
  if r.name = "" then some "empty name"
  else if r.rtype = RType.scalar ∧ r.scalarValue < 0 then some "negative scalar"
  else none

/-- The guarantee loop of `quota::validation::quotaInfo` (`quota.cpp`),
carrying the reference role: validate each resource, reject
reservation/disk/revocable metadata, non-scalar types, missing or
empty roles, and roles differing from the reference (storing the first
encountered role when the reference is empty). -/
def quotaInfoLoop (role : String) : List PResource → Except String Unit
  | [] => .ok ()
  | r :: rest =>
    match resourceValidationError r with
    | some _ => .error errInvalidResource
    | none =>
      if r.reservation then .error errReservation
      else if r.disk then .error errDisk
      else if r.revocable then .error errRevocable
      else if ¬ r.rtype = RType.scalar then .error errNonScalar
      else
        match r.role with
        | none => .error errNoRole
        | some rr =>
          if rr = "" then .error errEmptyRole
          else if role = "" then quotaInfoLoop rr rest
          else if ¬ role = rr then .error errDifferentRolesValidate
          else quotaInfoLoop role rest

/-- `quota::validation::quotaInfo`. -/
def quotaInfoValidate (q : QuotaInfoP) : Except String Unit :=
  quotaInfoLoop q.role q.guarantee

/-- A well-formed single-entry quota request resource: scalar cpus:1
for role "role1" with no reservation, disk or revocable metadata. -/
def sampleQuotaResource : PResource :=
  { name := "cpus", rtype := RType.scalar, scalarValue := 1,
    role := some "role1", reservation := false, disk := false, revocable := false }

/-- A sorter state whose total pool carries two scalar cpus entries
(unreserved and statically reserved for role "r", which Mesos
`Resources` addition keeps separate), exposing the difference between
per-entry and per-kind share denominators. -/
def splitPoolState : SorterState :=
  { clients := []
    allocations := [("a", [⟨"cpus", "*", SVal.scalar 4⟩])]
    weights := [("a", 1)]
    resources := [⟨"cpus", "*", SVal.scalar 5⟩, ⟨"cpus", "r", SVal.scalar 5⟩]
    dirty := true }

/-- A sorter state whose pool mentions every scalar kind in one entry
only. -/
def singleEntryPoolState : SorterState :=
  { clients := []
    allocations := [("a", [⟨"cpus", "*", SVal.scalar 4⟩])]
    weights := [("a", 1)]
    resources := [⟨"cpus", "*", SVal.scalar 10⟩, ⟨"mem", "*", SVal.scalar 64⟩]
    dirty := true }

/-- An unreserved cpus scalar entry. -/
def cpusRes (v : ℚ) : SResource :=
  ⟨"cpus", "*", SVal.scalar v⟩

/-- Sorter state reached by add "a", pool add cpus:10, then two
allocations of cpus:1 to "a": its client entry carries allocation
counter 2. -/
def twoAllocState : SorterState :=
  DRFSorter.applyOps DRFSorter.initState
    [.addClient "a" 1, .poolAdd [cpusRes 10], .alloc "a" [cpusRes 1], .alloc "a" [cpusRes 1]]

/-- Sorter state reached by add "a" then one allocation of cpus:1 with
no pool change. -/
def oneAllocState : SorterState :=
  DRFSorter.applyOps DRFSorter.initState [.addClient "a" 1, .alloc "a" [cpusRes 1]]

/-- A clean (not dirty) sorter state with a consistent stored share
used to witness the incremental-update equivalence. -/
def c4WitnessState : SorterState :=
  { clients := [⟨"a", 0, 0⟩]
    allocations := [("a", [])]
    weights := [("a", 1)]
    resources := [cpusRes 2]
    dirty := false }

/-- Invariant carried through every sorter operation sequence of claim
C1: the stored client set is strictly sorted by the comparator, and
while no pool change has ever happened (`dirty` is still false) the
pool is empty and every stored share is zero. -/
def C1Inv (s : SorterState) : Prop :=
  s.clients.Pairwise cLt ∧
    (s.dirty = false → s.resources = [] ∧ ∀ c ∈ s.clients, c.share = 0)

/- ===== Theorems ===== -/

/-- The comparator decides the lexicographic (share, allocations, name)
order. -/
theorem DRFComparator_iff (c1 c2 : Client) :
    DRFComparator c1 c2 = true ↔
      shareKeyLt (c1.share, c1.allocations, c1.name) (c2.share, c2.allocations, c2.name) := by
  unfold DRFComparator shareKeyLt
  split_ifs with h1 h2
  · simp [h1, h2, lt_self_iff_false]
  · simp [h1, h2, lt_self_iff_false]
  · simp [h1]

/-- The triple order is transitive. -/
theorem shareKeyLt_trans {a b c : ℚ × ℕ × String} :
    shareKeyLt a b → shareKeyLt b c → shareKeyLt a c := by
  unfold shareKeyLt
  rintro (h1 | ⟨e1, h1⟩) (h2 | ⟨e2, h2⟩)
  · exact Or.inl (lt_trans h1 h2)
  · exact Or.inl (e2 ▸ h1)
  · exact Or.inl (e1 ▸ h2)
  · refine Or.inr ⟨e1.trans e2, ?_⟩
    rcases h1 with h1 | ⟨f1, h1⟩ <;> rcases h2 with h2 | ⟨f2, h2⟩
    · exact Or.inl (lt_trans h1 h2)
    · exact Or.inl (f2 ▸ h1)
    · exact Or.inl (f1 ▸ h2)
    · exact Or.inr ⟨f1.trans f2, lt_trans h1 h2⟩

/-- The client order is transitive. -/
theorem cLt_trans {a b c : Client} (h1 : cLt a b) (h2 : cLt b c) : cLt a c := by
  unfold cLt at h1 h2 ⊢
  rw [DRFComparator_iff] at h1 h2 ⊢
  exact shareKeyLt_trans h1 h2

/-- Two clients that neither comparator call orders are equal: the
`std::set` equivalence relation on clients is plain equality. -/
theorem clientEq_of_not_lt {a b : Client} (h1 : ¬ cLt a b) (h2 : ¬ cLt b a) : a = b := by
  unfold cLt at h1 h2
  rw [DRFComparator_iff] at h1 h2
  unfold shareKeyLt at h1 h2
  have hs : a.share = b.share := by
    rcases lt_trichotomy a.share b.share with h | h | h
    · exact absurd (Or.inl h) h1
    · exact h
    · exact absurd (Or.inl h) h2
  have ha : a.allocations = b.allocations := by
    rcases lt_trichotomy a.allocations b.allocations with h | h | h
    · exact absurd (Or.inr ⟨hs, Or.inl h⟩) h1
    · exact h
    · exact absurd (Or.inr ⟨hs.symm, Or.inl h⟩) h2
  have hn : a.name = b.name := by
    rcases lt_trichotomy a.name b.name with h | h | h
    · exact absurd (Or.inr ⟨hs, Or.inr ⟨ha, h⟩⟩) h1
    · exact h
    · exact absurd (Or.inr ⟨hs.symm, Or.inr ⟨ha.symm, h⟩⟩) h2
  cases a; cases b; simp_all

/-- Membership after a set insertion. -/
theorem mem_setInsert {x c : Client} : ∀ {l : List Client}, x ∈ setInsert c l → x = c ∨ x ∈ l := by
  intro l
  induction l with
  | nil => simp [setInsert]
  | cons y ys ih =>
    simp only [setInsert]
    split_ifs with h1 h2 <;> intro hx
    · rcases List.mem_cons.mp hx with rfl | hx'
      · exact Or.inl rfl
      · exact Or.inr hx'
    · rcases List.mem_cons.mp hx with rfl | hx'
      · exact Or.inr (List.mem_cons_self _ _)
      · rcases ih hx' with rfl | h
        · exact Or.inl rfl
        · exact Or.inr (List.mem_cons_of_mem _ h)
    · exact Or.inr hx

/-- The inserted element is a member of the result (in the no-op branch
the equivalent resident element is the inserted one). -/
theorem self_mem_setInsert (c : Client) : ∀ (l : List Client), c ∈ setInsert c l := by
  intro l
  induction l with
  | nil => simp [setInsert]
  | cons y ys ih =>
    simp only [setInsert]
    split_ifs with h1 h2
    · exact List.mem_cons_self _ _
    · exact List.mem_cons_of_mem _ ih
    · have : c = y := clientEq_of_not_lt h1 h2
      rw [this]
      exact List.mem_cons_self _ _

/-- Old members survive a set insertion. -/
theorem mem_setInsert_of_mem {x c : Client} : ∀ {l : List Client}, x ∈ l → x ∈ setInsert c l := by
  intro l
  induction l with
  | nil => simp
  | cons y ys ih =>
    intro hx
    simp only [setInsert]
    split_ifs with h1 h2
    · exact List.mem_cons_of_mem _ hx
    · rcases List.mem_cons.mp hx with rfl | hx'
      · exact List.mem_cons_self _ _
      · exact List.mem_cons_of_mem _ (ih hx')
    · exact hx

/-- Set insertion keeps the list strictly sorted. -/
theorem setInsert_pairwise {c : Client} :
    ∀ {l : List Client}, l.Pairwise cLt → (setInsert c l).Pairwise cLt := by
  intro l
  induction l with
  | nil => intro _; simp [setInsert, List.pairwise_cons]
  | cons y ys ih =>
    intro h
    rw [List.pairwise_cons] at h
    obtain ⟨hy, hys⟩ := h
    simp only [setInsert]
    split_ifs with h1 h2
    · refine List.pairwise_cons.mpr ⟨?_, List.pairwise_cons.mpr ⟨hy, hys⟩⟩
      intro z hz
      rcases List.mem_cons.mp hz with rfl | hz'
      · exact h1
      · exact cLt_trans h1 (hy z hz')
    · refine List.pairwise_cons.mpr ⟨?_, ih hys⟩
      intro z hz
      rcases mem_setInsert hz with rfl | hz'
      · exact h2
      · exact hy z hz'
    · exact List.pairwise_cons.mpr ⟨hy, hys⟩

/-- Erasing the first element with a given name yields a sublist. -/
theorem eraseFirstName_sublist (n : String) :
    ∀ (l : List Client), List.Sublist (eraseFirstName n l) l := by
  intro l
  induction l with
  | nil => simp [eraseFirstName]
  | cons y ys ih =>
    simp only [eraseFirstName]
    split_ifs with h
    · exact List.sublist_cons_self _ _
    · exact List.Sublist.cons₂ _ ih

/-- Erasure keeps the list strictly sorted. -/
theorem eraseFirstName_pairwise {n : String} {l : List Client} (h : l.Pairwise cLt) :
    (eraseFirstName n l).Pairwise cLt :=
  h.sublist (eraseFirstName_sublist n l)

/-- Members of the erased list are members of the original. -/
theorem mem_of_mem_eraseFirstName {x : Client} {n : String} {l : List Client}
    (h : x ∈ eraseFirstName n l) : x ∈ l :=
  (eraseFirstName_sublist n l).subset h

/-- Folding set insertions over a list keeps the accumulator strictly
sorted (the rebuild loop of the dirty `sort()` branch). -/
theorem pairwise_foldl_setInsert (f : Client → Client) :
    ∀ (l : List Client) (acc : List Client), acc.Pairwise cLt →
      (l.foldl (fun a c => setInsert (f c) a) acc).Pairwise cLt := by
  intro l
  induction l with
  | nil => intro acc h; simpa using h
  | cons y ys ih =>
    intro acc h
    simpa using ih (setInsert (f y) acc) (setInsert_pairwise h)

/-- Members of the rebuild fold come from the accumulator or are images
of the folded clients. -/
theorem mem_foldl_setInsert (f : Client → Client) :
    ∀ (l : List Client) (acc : List Client) (x : Client),
      x ∈ l.foldl (fun a c => setInsert (f c) a) acc → x ∈ acc ∨ ∃ c ∈ l, x = f c := by
  intro l
  induction l with
  | nil => intro acc x hx; exact Or.inl (by simpa using hx)
  | cons y ys ih =>
    intro acc x hx
    simp only [List.foldl_cons] at hx
    rcases ih (setInsert (f y) acc) x hx with h | ⟨c, hc, rfl⟩
    · rcases mem_setInsert h with rfl | h'
      · exact Or.inr ⟨y, List.mem_cons_self _ _, rfl⟩
      · exact Or.inl h'
    · exact Or.inr ⟨c, List.mem_cons_of_mem _ hc, rfl⟩

/-- With an empty total pool every share is zero (the running maximum
starts at zero and `0 / weight = 0`). -/
theorem calculateShare_empty (s : SorterState) (n : String) (h : s.resources = []) :
    DRFSorter.calculateShare s n = 0 := by
  unfold DRFSorter.calculateShare
  rw [h]
  simp

/-- The share of a client depends only on its recorded allocation, its
weight and the total pool. -/
theorem calculateShare_congr (s s' : SorterState) (n : String)
    (h1 : DRFSorter.allocOf s n = DRFSorter.allocOf s' n)
    (h2 : DRFSorter.weightOf s n = DRFSorter.weightOf s' n)
    (h3 : s.resources = s'.resources) :
    DRFSorter.calculateShare s n = DRFSorter.calculateShare s' n := by
  unfold DRFSorter.calculateShare
  rw [h1, h2, h3]

/-- A strictly sorted client list whose stored shares agree with the
current recomputation is strictly ascending in the current
(share, allocations, name) key. -/
theorem pairwise_currentKey (s : SorterState) {l : List Client} (hp : l.Pairwise cLt)
    (he : ∀ c ∈ l, c.share = DRFSorter.calculateShare s c.name) :
    l.Pairwise (fun a b => shareKeyLt (currentKey s a) (currentKey s b)) := by
  refine hp.imp_of_mem ?_
  intro a b ha hb hab
  have h := (DRFComparator_iff a b).mp hab
  unfold currentKey
  rw [← he a ha, ← he b hb]
  exact h

/-- The fields `bumpCounter` leaves untouched. -/
theorem bumpCounter_fields (s : SorterState) (n : String) :
    (DRFSorter.bumpCounter s n).allocations = s.allocations ∧
      (DRFSorter.bumpCounter s n).weights = s.weights ∧
      (DRFSorter.bumpCounter s n).resources = s.resources ∧
      (DRFSorter.bumpCounter s n).dirty = s.dirty := by
  unfold DRFSorter.bumpCounter
  cases findFirstName n s.clients <;> exact ⟨rfl, rfl, rfl, rfl⟩

/-- The fields `update` leaves untouched. -/
theorem update_fields (s : SorterState) (n : String) :
    (DRFSorter.update s n).allocations = s.allocations ∧
      (DRFSorter.update s n).weights = s.weights ∧
      (DRFSorter.update s n).resources = s.resources ∧
      (DRFSorter.update s n).dirty = s.dirty := by
  unfold DRFSorter.update
  cases findFirstName n s.clients <;> exact ⟨rfl, rfl, rfl, rfl⟩

/-- The counter-bump step preserves the C1 invariant. -/
theorem C1Inv_bumpCounter {s : SorterState} (h : C1Inv s) (n : String) :
    C1Inv (DRFSorter.bumpCounter s n) := by
  obtain ⟨hp, hcl⟩ := h
  unfold DRFSorter.bumpCounter
  cases hf : findFirstName n s.clients with
  | none => exact ⟨hp, hcl⟩
  | some c =>
    constructor
    · exact setInsert_pairwise (eraseFirstName_pairwise hp)
    · intro hd
      obtain ⟨hres, hz⟩ := hcl hd
      refine ⟨hres, ?_⟩
      intro x hx
      rcases mem_setInsert hx with rfl | hx'
      · have hcm : c ∈ s.clients := List.mem_of_find?_eq_some hf
        simpa using hz c hcm
      · exact hz x (mem_of_mem_eraseFirstName hx')

/-- `update` preserves the C1 invariant. -/
theorem C1Inv_update {s : SorterState} (h : C1Inv s) (n : String) :
    C1Inv (DRFSorter.update s n) := by
  obtain ⟨hp, hcl⟩ := h
  unfold DRFSorter.update
  cases hf : findFirstName n s.clients with
  | none => exact ⟨hp, hcl⟩
  | some c =>
    constructor
    · exact setInsert_pairwise (eraseFirstName_pairwise hp)
    · intro hd
      obtain ⟨hres, hz⟩ := hcl hd
      refine ⟨hres, ?_⟩
      intro x hx
      rcases mem_setInsert hx with rfl | hx'
      · simpa using calculateShare_empty s n hres
      · exact hz x (mem_of_mem_eraseFirstName hx')

/-- Changing only the `allocations` hashmap preserves the C1
invariant. -/
theorem C1Inv_allocMap {s : SorterState} (h : C1Inv s) (al : List (String × Resources)) :
    C1Inv { s with allocations := al } :=
  h

/-- `allocated` preserves the C1 invariant. -/
theorem C1Inv_allocated {s : SorterState} (h : C1Inv s) (n : String) (rs : Resources) :
    C1Inv (DRFSorter.allocated s n rs) := by
  have h1 : C1Inv (DRFSorter.bumpCounter s n) := C1Inv_bumpCounter h n
  unfold DRFSorter.allocated
  dsimp only
  split
  · exact C1Inv_allocMap h1 _
  · exact C1Inv_update (C1Inv_allocMap h1 _) n

/-- `unallocated` preserves the C1 invariant. -/
theorem C1Inv_unallocated {s : SorterState} (h : C1Inv s) (n : String) (rs : Resources) :
    C1Inv (DRFSorter.unallocated s n rs) := by
  unfold DRFSorter.unallocated
  dsimp only
  split
  · exact C1Inv_allocMap h _
  · exact C1Inv_update (C1Inv_allocMap h _) n

/-- Every C1 operation preserves the C1 invariant. -/
theorem C1Inv_applyOp (s : SorterState) (op : DRFSorter.Op) (h : C1Inv s) :
    C1Inv (DRFSorter.applyOp s op) := by
  obtain ⟨hp, hcl⟩ := h
  cases op with
  | addClient n w =>
    constructor
    · exact setInsert_pairwise hp
    · intro hd
      obtain ⟨hres, hz⟩ := hcl hd
      refine ⟨hres, ?_⟩
      intro c hc
      rcases mem_setInsert hc with rfl | hc'
      · rfl
      · exact hz c hc'
  | alloc n rs => exact C1Inv_allocated ⟨hp, hcl⟩ n rs
  | unalloc n rs => exact C1Inv_unallocated ⟨hp, hcl⟩ n rs
  | poolAdd rs =>
    refine ⟨hp, ?_⟩
    intro hd
    simp [DRFSorter.applyOp, DRFSorter.poolAdd] at hd
  | poolRemove rs =>
    refine ⟨hp, ?_⟩
    intro hd
    simp [DRFSorter.applyOp, DRFSorter.poolRemove] at hd

/-- The C1 invariant is preserved by any operation sequence. -/
theorem C1Inv_applyOps_of (ops : List DRFSorter.Op) :
    ∀ s : SorterState, C1Inv s → C1Inv (DRFSorter.applyOps s ops) := by
  induction ops with
  | nil => intro s h; exact h
  | cons op rest ih =>
    intro s h
    exact ih (DRFSorter.applyOp s op) (C1Inv_applyOp s op h)

/-- The C1 invariant holds along any operation sequence from the fresh
sorter. -/
theorem C1Inv_applyOps (ops : List DRFSorter.Op) :
    C1Inv (DRFSorter.applyOps DRFSorter.initState ops) := by
  refine C1Inv_applyOps_of ops _ ⟨List.Pairwise.nil, ?_⟩
  intro _
  exact ⟨rfl, by intro c hc; simp [DRFSorter.initState] at hc⟩

/-- Claim C1: for every sequence of DRFSorter operations `add(client)`,
`allocated`, `unallocated`, pool `add(resources)` and pool
`remove(resources)` applied to a fresh sorter, the client list the next
`sort()` call returns (whose names are `sortNames`) is strictly
ascending in the triple (share as recomputed by `calculateShare`
against the current total pool, allocations counter, client name):
lower share first, ties by fewer cumulative allocations, then lexically
smaller name. -/
theorem C1_sorter_ordering_invariant (ops : List DRFSorter.Op) :
    (DRFSorter.sortClients (DRFSorter.applyOps DRFSorter.initState ops)).Pairwise
      (fun a b => shareKeyLt (currentKey (DRFSorter.applyOps DRFSorter.initState ops) a)
        (currentKey (DRFSorter.applyOps DRFSorter.initState ops) b)) := by
  have hinv := C1Inv_applyOps ops
  obtain ⟨hp, hcl⟩ := hinv
  unfold DRFSorter.sortClients
  split_ifs with hd
  · refine pairwise_currentKey _ ?_ ?_
    · exact pairwise_foldl_setInsert _ _ [] List.Pairwise.nil
    · intro c hc
      rcases mem_foldl_setInsert _ _ [] c hc with h | ⟨c0, _, rfl⟩
      · simp at h
      · rfl
  · have hd' : (DRFSorter.applyOps DRFSorter.initState ops).dirty = false :=
      Bool.not_eq_true _ ▸ eq_false_of_ne_true hd
    obtain ⟨hres, hz⟩ := hcl hd'
    refine pairwise_currentKey _ hp ?_
    intro c hc
    rw [hz c hc, calculateShare_empty _ _ hres]

/-- When no scalar entry of the list carries the name, the collected
scalar values are empty. -/
theorem scalarValuesOf_nil {A : Resources} {n : String}
    (h : ∀ y ∈ A, y.val.isScalar = true → ¬ y.name = n) :
    Resources.scalarValuesOf A n = [] := by
  induction A with
  | nil => rfl
  | cons x xs ih =>
    unfold Resources.scalarValuesOf
    simp only [List.filterMap_cons]
    cases hx : x.val with
    | scalar v =>
      have hn : ¬ x.name = n := h x (List.mem_cons_self _ _) (by rw [hx]; rfl)
      simp only [hn, if_false]
      exact ih (fun y hy => h y (List.mem_cons_of_mem _ hy))
    | nonscalar t =>
      exact ih (fun y hy => h y (List.mem_cons_of_mem _ hy))

/-- With no resource kind repeated among the pool's scalar entries, the
values collected for a scalar entry's name are exactly that entry's
value. -/
theorem scalarValuesOf_single {A : Resources}
    (h : ((A.filter (fun r => r.val.isScalar)).map (fun r => r.name)).Nodup) :
    ∀ {r : SResource} {v : ℚ}, r ∈ A → r.val = SVal.scalar v →
      Resources.scalarValuesOf A r.name = [v] := by
  induction A with
  | nil => intro r v hr _; simp at hr
  | cons x xs ih =>
    intro r v hr hv
    rcases List.mem_cons.mp hr with rfl | hr'
    · have hfilter : (r :: xs).filter (fun y => y.val.isScalar) =
          r :: xs.filter (fun y => y.val.isScalar) := by
        simp [List.filter_cons, hv, SVal.isScalar]
      rw [hfilter] at h
      simp only [List.map_cons, List.nodup_cons] at h
      have hnil : Resources.scalarValuesOf xs r.name = [] := by
        refine scalarValuesOf_nil ?_
        intro y hy hys hyn
        refine h.1 ?_
        rw [← hyn]
        exact List.mem_map_of_mem _ (List.mem_filter.mpr ⟨hy, hys⟩)
      unfold Resources.scalarValuesOf
      unfold Resources.scalarValuesOf at hnil
      simp [List.filterMap_cons, hv, hnil]
    · cases hx : x.val with
      | scalar w =>
        have hfilter : (x :: xs).filter (fun y => y.val.isScalar) =
            x :: xs.filter (fun y => y.val.isScalar) := by
          simp [List.filter_cons, hx, SVal.isScalar]
        rw [hfilter] at h
        simp only [List.map_cons, List.nodup_cons] at h
        have hxname : ¬ x.name = r.name := by
          intro heq
          refine h.1 ?_
          rw [heq]
          refine List.mem_map_of_mem _ (List.mem_filter.mpr ⟨hr', ?_⟩)
          rw [hv]; rfl
        have htail := ih h.2 hr' hv
        unfold Resources.scalarValuesOf
        unfold Resources.scalarValuesOf at htail
        simp [List.filterMap_cons, hx, hxname, htail]
      | nonscalar t =>
        have hfilter : (x :: xs).filter (fun y => y.val.isScalar) =
            xs.filter (fun y => y.val.isScalar) := by
          simp [List.filter_cons, hx, SVal.isScalar]
        rw [hfilter] at h
        have htail := ih h hr' hv
        unfold Resources.scalarValuesOf
        unfold Resources.scalarValuesOf at htail
        simp [List.filterMap_cons, hx, htail]

/-- The entrywise share fold of `calculateShare` agrees with the
per-kind maximum of the spec formula as long as every scalar entry's
per-kind total equals its own value. -/
theorem calcShare_fold_spec (s : SorterState) (n : String) :
    ∀ (L : Resources) (a : ℚ), 0 ≤ a →
      (∀ r ∈ L, ∀ v : ℚ, r.val = SVal.scalar v →
        (Resources.scalarValuesOf s.resources r.name).sum = v) →
      L.foldl (fun sh r =>
        match r.val with
        | SVal.scalar total =>
          if 0 < total then
            max sh (((Resources.getScalar (DRFSorter.allocOf s n) r.name).getD 0) / total)
          else sh
        | SVal.nonscalar _ => sh) a
      = ((L.filter (fun r => r.val.isScalar)).map (fun r =>
          let total := (Resources.scalarValuesOf s.resources r.name).sum
          if 0 < total then
            ((Resources.getScalar (DRFSorter.allocOf s n) r.name).getD 0) / total
          else 0)).foldl max a := by
  intro L
  induction L with
  | nil => intro a _ _; rfl
  | cons r rest ih =>
    intro a ha hsv
    cases hv : r.val with
    | scalar v =>
      have htot : (Resources.scalarValuesOf s.resources r.name).sum = v :=
        hsv r (List.mem_cons_self _ _) v hv
      have hfilter : (r :: rest).filter (fun y => y.val.isScalar) =
          r :: rest.filter (fun y => y.val.isScalar) := by
        simp [List.filter_cons, hv, SVal.isScalar]
      rw [hfilter]
      simp only [List.foldl_cons, List.map_cons, hv, htot]
      by_cases hpos : 0 < v
      · simp only [hpos, if_true]
        exact ih _ (le_trans ha (le_max_left _ _))
          (fun y hy => hsv y (List.mem_cons_of_mem _ hy))
      · simp only [hpos, if_false]
        rw [max_eq_left ha]
        exact ih _ ha (fun y hy => hsv y (List.mem_cons_of_mem _ hy))
    | nonscalar t =>
      have hfilter : (r :: rest).filter (fun y => y.val.isScalar) =
          rest.filter (fun y => y.val.isScalar) := by
        simp [List.filter_cons, hv, SVal.isScalar]
      rw [hfilter]
      simp only [List.foldl_cons, hv]
      exact ih _ ha (fun y hy => hsv y (List.mem_cons_of_mem _ hy))

/-- Claim C5 as stated is false: with the pool holding two scalar cpus
entries (an unreserved one and one statically reserved for role "r",
which `Resources` addition keeps separate), `calculateShare` divides by
each entry's own value (giving 4/5) while the spec formula divides by
the per-kind total (giving 4/10). -/
theorem C5_calculateShare_counterexample :
    DRFSorter.calculateShare splitPoolState "a" ≠ specCalculateShare splitPoolState "a" := by
  have h1 : DRFSorter.calculateShare splitPoolState "a" = 4 / 5 := by
    norm_num [DRFSorter.calculateShare, DRFSorter.allocOf, DRFSorter.weightOf, splitPoolState,
      assocGetD, Resources.getScalar, Resources.scalarValuesOf, List.find?, List.foldl,
      List.filterMap_cons, List.filterMap_nil, List.sum_cons, List.sum_nil, Option.getD,
      max_def]
  have h2 : specCalculateShare splitPoolState "a" = 2 / 5 := by
    norm_num [specCalculateShare, DRFSorter.allocOf, DRFSorter.weightOf, splitPoolState,
      assocGetD, Resources.getScalar, Resources.scalarValuesOf, List.find?, List.foldl,
      List.filterMap_cons, List.filterMap_nil, List.sum_cons, List.sum_nil, Option.getD,
      List.dedup, List.filter, max_def]
  rw [h1, h2]
  norm_num

/-- Claim C5 amended: when no resource kind occurs in two scalar
entries of the total pool, `calculateShare(client)` equals the
per-kind maximum of the spec formula — the maximum over scalar kinds
with positive total of allocated/total, divided by the client's
weight. -/
theorem C5_calculateShare_formula (s : SorterState) (n : String)
    (h : ((s.resources.filter (fun r => r.val.isScalar)).map (fun r => r.name)).Nodup) :
    DRFSorter.calculateShare s n = specCalculateShare s n := by
  have hsv : ∀ r ∈ s.resources, ∀ v : ℚ, r.val = SVal.scalar v →
      (Resources.scalarValuesOf s.resources r.name).sum = v := by
    intro r hr v hv
    rw [scalarValuesOf_single h hr hv]
    simp
  have hfold := calcShare_fold_spec s n s.resources 0 le_rfl hsv
  unfold DRFSorter.calculateShare specCalculateShare
  dsimp only
  rw [List.dedup_eq_self.mpr h, List.map_map]
  rw [hfold]
  rfl

/-- Witness for the amended C5: a pool mentioning each kind once, where
the code's share (4/10) matches the spec formula. -/
theorem C5_calculateShare_formula_witness :
    ((singleEntryPoolState.resources.filter (fun r => r.val.isScalar)).map
      (fun r => r.name)).Nodup ∧
      DRFSorter.calculateShare singleEntryPoolState "a" =
        specCalculateShare singleEntryPoolState "a" :=
  ⟨by decide, C5_calculateShare_formula singleEntryPoolState "a" (by decide)⟩

/-- Setting a key then reading it back returns the stored value. -/
theorem assocGetD_set_self {β : Type} (l : List (String × β)) (k : String) (v : β) (d : β) :
    assocGetD (assocSet l k v) k d = v := by
  induction l with
  | nil => simp [assocSet, assocGetD, List.find?]
  | cons p ps ih =>
    unfold assocSet
    split_ifs with h
    · simp [assocGetD, List.find?]
    · unfold assocGetD
      unfold assocGetD at ih
      simp only [List.find?]
      have hp : (p.1 = k) = False := by simp [h]
      simp only [hp, decide_False]
      exact ih

/-- Claim C7 as stated is false: in the state reached by add "a", pool
add cpus:10 and two allocations, the client entry for "a" carries
allocation counter 2, but after `deactivate("a")` then `activate("a")`
the reinserted entry carries counter 0 — the fairness memory is lost
(as the source comment in `deactivate` itself notes). -/
theorem C7_deactivate_activate_counterexample :
    (findFirstName "a" twoAllocState.clients).map (fun c => c.allocations) = some 2 ∧
      (findFirstName "a"
          (DRFSorter.activate (DRFSorter.deactivate twoAllocState "a") "a").clients).map
        (fun c => c.allocations) = some 0 := by
  constructor <;> decide

/-- Claim C7 amended: `deactivate(client)` erases the client's entry
(so its historical allocations counter is lost) and `activate(client)`
reinserts it with the counter reset to zero and the share recomputed to
the current value; the cumulative allocation `Resources` and the weight
bookkeeping do survive the cycle. -/
theorem C7_deactivate_activate_effect (s : SorterState) (n : String)
    (_h : DRFSorter.containsClient s n = true) :
    (DRFSorter.activate (DRFSorter.deactivate s n) n).allocations = s.allocations ∧
      (DRFSorter.activate (DRFSorter.deactivate s n) n).weights = s.weights ∧
      (⟨n, DRFSorter.calculateShare s n, 0⟩ : Client) ∈
        (DRFSorter.activate (DRFSorter.deactivate s n) n).clients := by
  refine ⟨rfl, rfl, ?_⟩
  exact self_mem_setInsert _ _

/-- Witness for the amended C7 at the two-allocation state. -/
theorem C7_deactivate_activate_effect_witness :
    DRFSorter.containsClient twoAllocState "a" = true ∧
      ((DRFSorter.activate (DRFSorter.deactivate twoAllocState "a") "a").allocations =
          twoAllocState.allocations ∧
        (DRFSorter.activate (DRFSorter.deactivate twoAllocState "a") "a").weights =
          twoAllocState.weights ∧
        (⟨"a", DRFSorter.calculateShare twoAllocState "a", 0⟩ : Client) ∈
          (DRFSorter.activate (DRFSorter.deactivate twoAllocState "a") "a").clients) :=
  ⟨by decide, C7_deactivate_activate_effect twoAllocState "a" (by decide)⟩

/-- Claim C9 as stated is false: after add "a" and one allocation of
cpus:1, calling `add("a", 1)` again is not a no-op — it resets the
recorded cumulative allocation of "a" from cpus:1 back to empty (and
inserts a second (share 0, allocations 0) entry for "a"). -/
theorem C9_add_existing_counterexample :
    DRFSorter.allocation oneAllocState "a" = [cpusRes 1] ∧
      DRFSorter.allocation (DRFSorter.addClient oneAllocState "a" 1) "a" = [] ∧
      DRFSorter.addClient oneAllocState "a" 1 ≠ oneAllocState := by
  have h2 : DRFSorter.allocation oneAllocState "a" = [cpusRes 1] := by decide
  have h3 : DRFSorter.allocation (DRFSorter.addClient oneAllocState "a" 1) "a" = [] := by
    decide
  refine ⟨h2, h3, ?_⟩
  intro heq
  have hcong := congrArg (fun st => DRFSorter.allocation st "a") heq
  simp only [h2, h3] at hcong
  exact List.cons_ne_nil _ _ hcong.symm

/-- Claim C9 amended: `add(name, weight)` on an already registered name
resets the name's cumulative allocation to empty and overwrites its
weight with the given one, while every previously stored client entry
survives (a fresh (share 0, allocations 0) entry for the name is
inserted unless an identical one is already present). -/
theorem C9_add_existing_overwrites (s : SorterState) (n : String) (w : ℚ)
    (_h : DRFSorter.containsClient s n = true) :
    DRFSorter.allocation (DRFSorter.addClient s n w) n = [] ∧
      DRFSorter.weightOf (DRFSorter.addClient s n w) n = w ∧
      ∀ c ∈ s.clients, c ∈ (DRFSorter.addClient s n w).clients := by
  refine ⟨?_, ?_, ?_⟩
  · exact assocGetD_set_self s.allocations n [] []
  · exact assocGetD_set_self s.weights n w 0
  · intro c hc
    exact mem_setInsert_of_mem hc

/-- Witness for the amended C9 at the one-allocation state. -/
theorem C9_add_existing_overwrites_witness :
    DRFSorter.containsClient oneAllocState "a" = true ∧
      (DRFSorter.allocation (DRFSorter.addClient oneAllocState "a" 2) "a" = [] ∧
        DRFSorter.weightOf (DRFSorter.addClient oneAllocState "a" 2) "a" = 2 ∧
        ∀ c ∈ oneAllocState.clients, c ∈ (DRFSorter.addClient oneAllocState "a" 2).clients) :=
  ⟨by decide, C9_add_existing_overwrites oneAllocState "a" 2 (by decide)⟩

/-- Setting a key makes the map contain it. -/
theorem assocHas_set_self {β : Type} (l : List (String × β)) (k : String) (v : β) :
    assocHas (assocSet l k v) k = true := by
  induction l with
  | nil => simp [assocSet, assocHas]
  | cons p ps ih =>
    unfold assocSet
    split_ifs with h
    · simp [assocHas]
    · unfold assocHas
      unfold assocHas at ih
      simp only [List.any_cons, ih, Bool.or_true]

/-- Reading an absent key yields the default. -/
theorem assocGetD_of_has_false {β : Type} {l : List (String × β)} {k : String}
    (h : assocHas l k = false) (d : β) : assocGetD l k d = d := by
  unfold assocHas at h
  unfold assocGetD
  have : l.find? (fun p => p.1 = k) = none := by
    rw [List.find?_eq_none]
    intro p hp
    simp only [List.any_eq_false] at h
    simpa using h p hp
  rw [this]

/-- Folding fresh, pairwise non-coalescing, non-empty entries into an
accumulator they cannot merge with is plain list append. -/
theorem foldl_addOne_fresh :
    ∀ (rs : Resources) (acc : Resources),
      (∀ r ∈ rs, Resources.isEmptyRes r = false) →
      (∀ r ∈ rs, ∀ x ∈ acc, Resources.addableScalar x r.name r.role = false) →
      rs.Pairwise (fun a b => Resources.addableScalar a b.name b.role = false) →
      rs.foldl Resources.addOne acc = acc ++ rs := by
  intro rs
  induction rs with
  | nil => intro acc _ _ _; simp
  | cons r rest ih =>
    intro acc hemp hfresh hpair
    rw [List.pairwise_cons] at hpair
    have hstep : Resources.addOne acc r = acc ++ [r] := by
      unfold Resources.addOne
      cases hv : r.val with
      | scalar v =>
        have hvne : ¬ v = 0 := by
          have := hemp r (List.mem_cons_self _ _)
          unfold Resources.isEmptyRes at this
          rw [hv] at this
          simpa using this
        have hany : acc.any (fun x => Resources.addableScalar x r.name r.role) = false := by
          rw [List.any_eq_false]
          intro x hx
          simp [hfresh r (List.mem_cons_self _ _) x hx]
        simp [hvne, hany]
      | nonscalar t => rfl
    simp only [List.foldl_cons, hstep]
    rw [ih (acc ++ [r]) (fun q hq => hemp q (List.mem_cons_of_mem _ hq))
      ?_ hpair.2]
    · simp
    · intro q hq x hx
      rcases List.mem_append.mp hx with hx' | hx'
      · exact hfresh q (List.mem_cons_of_mem _ hq) x hx'
      · rw [List.mem_singleton.mp hx']
        exact hpair.1 q hq

/-- Adding a normalized `Resources` value to the empty collection
reproduces it. -/
theorem add_nil_of_normalized {rs : Resources} (h : Normalized rs) :
    Resources.add [] rs = rs := by
  unfold Resources.add
  rw [foldl_addOne_fresh rs [] h.1 (by intro r _ x hx; simp at hx) h.2]
  simp

/-- Claim C10: `allocated(name, resources)` on a name never registered
(absent from the `allocations` map and from the client set) silently
creates the bookkeeping: afterwards `contains(name)` is true and
`allocation(name)` returns the given resources, while the name still
does not appear in the output of `sort()`. -/
theorem C10_allocated_unregistered (s : SorterState) (n : String) (rs : Resources)
    (h1 : DRFSorter.containsClient s n = false)
    (h2 : n ∉ namesOf s.clients)
    (h3 : Normalized rs) :
    DRFSorter.containsClient (DRFSorter.allocated s n rs) n = true ∧
      DRFSorter.allocation (DRFSorter.allocated s n rs) n = rs ∧
      n ∉ DRFSorter.sortNames (DRFSorter.allocated s n rs) := by
  have hf : findFirstName n s.clients = none := by
    unfold findFirstName
    rw [List.find?_eq_none]
    intro c hc
    simp only [decide_eq_true_eq]
    intro hcn
    exact h2 (hcn ▸ List.mem_map_of_mem _ hc)
  have hbump : DRFSorter.bumpCounter s n = s := by
    unfold DRFSorter.bumpCounter
    rw [hf]
  have hresult : DRFSorter.allocated s n rs =
      { s with allocations := assocUpd s.allocations n [] (fun old => old.add rs) } := by
    unfold DRFSorter.allocated
    rw [hbump]
    dsimp only
    split_ifs with hd
    · rfl
    · unfold DRFSorter.update
      rw [hf]
  have hval : assocUpd s.allocations n [] (fun old => old.add rs) =
      assocSet s.allocations n rs := by
    unfold assocUpd
    rw [assocGetD_of_has_false h1]
    dsimp only
    rw [add_nil_of_normalized h3]
  rw [hresult, hval]
  refine ⟨assocHas_set_self _ _ _, assocGetD_set_self _ _ _ _, ?_⟩
  unfold DRFSorter.sortNames DRFSorter.sortClients DRFSorter.rebuildClients
  dsimp only
  intro hmem
  rcases List.mem_map.mp hmem with ⟨c, hc, hcn⟩
  split_ifs at hc with hd
  · rcases mem_foldl_setInsert _ _ _ _ hc with hemp | ⟨c0, hc0, rfl⟩
    · simp at hemp
    · refine h2 ?_
      have hc0n : c0.name = n := by simpa using hcn
      exact hc0n ▸ List.mem_map_of_mem _ hc0
  · exact h2 (hcn ▸ List.mem_map_of_mem _ hc)

/-- Witness for C10: a sorter holding only client "b"; allocating
cpus:1 to the unknown name "a" records it without failing and keeps it
out of the sort order. -/
theorem C10_allocated_unregistered_witness :
    DRFSorter.containsClient (DRFSorter.applyOps DRFSorter.initState [.addClient "b" 1]) "a"
        = false ∧
      "a" ∉ namesOf (DRFSorter.applyOps DRFSorter.initState [.addClient "b" 1]).clients ∧
      Normalized [cpusRes 1] ∧
      (DRFSorter.containsClient
          (DRFSorter.allocated (DRFSorter.applyOps DRFSorter.initState [.addClient "b" 1])
            "a" [cpusRes 1]) "a" = true ∧
        DRFSorter.allocation
            (DRFSorter.allocated (DRFSorter.applyOps DRFSorter.initState [.addClient "b" 1])
              "a" [cpusRes 1]) "a" = [cpusRes 1] ∧
        "a" ∉ DRFSorter.sortNames
            (DRFSorter.allocated (DRFSorter.applyOps DRFSorter.initState [.addClient "b" 1])
              "a" [cpusRes 1])) :=
  ⟨by decide, by decide, by decide,
    C10_allocated_unregistered (DRFSorter.applyOps DRFSorter.initState [.addClient "b" 1])
      "a" [cpusRes 1] (by decide) (by decide) (by decide)⟩

/-- Setting one key leaves the other keys unchanged. -/
theorem assocGetD_set_ne {β : Type} {l : List (String × β)} {k k' : String} (h : ¬ k' = k)
    (v : β) (d : β) : assocGetD (assocSet l k v) k' d = assocGetD l k' d := by
  induction l with
  | nil =>
    simp only [assocSet, assocGetD, List.find?]
    have : ((k, v).1 = k') = False := by
      simp only [eq_iff_iff, iff_false]
      intro hkk
      exact h hkk.symm
    simp [this]
  | cons p ps ih =>
    unfold assocSet
    split_ifs with hp
    · unfold assocGetD
      simp only [List.find?]
      have h1 : ((k, v).1 = k') = False := by
        simp only [eq_iff_iff, iff_false]
        intro hkk
        exact h hkk.symm
      have h2 : (p.1 = k') = False := by
        simp only [eq_iff_iff, iff_false]
        intro hpk
        exact h (hpk.symm.trans hp)
      simp [h1, h2]
    · unfold assocGetD
      unfold assocGetD at ih
      simp only [List.find?]
      by_cases hpk : p.1 = k'
      · simp [hpk]
      · have : (p.1 = k') = False := by simp [hpk]
        simp only [this, decide_False]
        exact ih

/-- In a list with duplicate-free names, a member surviving
`eraseFirstName n` is an original member not named `n`. -/
theorem mem_eraseFirstName_nodup :
    ∀ {l : List Client}, (namesOf l).Nodup → ∀ {x : Client} {n : String},
      x ∈ eraseFirstName n l → x ∈ l ∧ ¬ x.name = n := by
  intro l
  induction l with
  | nil => intro _ x n hx; simp [eraseFirstName] at hx
  | cons y ys ih =>
    intro h x n hx
    simp only [namesOf, List.map_cons, List.nodup_cons] at h
    unfold eraseFirstName at hx
    split_ifs at hx with hy
    · refine ⟨List.mem_cons_of_mem _ hx, ?_⟩
      intro hxn
      refine h.1 ?_
      rw [hy, ← hxn]
      exact List.mem_map_of_mem _ hx
    · rcases List.mem_cons.mp hx with rfl | hx'
      · exact ⟨List.mem_cons_self _ _, hy⟩
      · obtain ⟨hmem, hname⟩ := ih h.2 hx'
        exact ⟨List.mem_cons_of_mem _ hmem, hname⟩

/-- Inserting an element that is not present permutes to consing it. -/
theorem setInsert_perm_of_not_mem {c : Client} :
    ∀ {l : List Client}, c ∉ l → List.Perm (setInsert c l) (c :: l) := by
  intro l
  induction l with
  | nil => intro _; simp [setInsert]
  | cons y ys ih =>
    intro hc
    have hcy : c ≠ y := fun h => hc (h ▸ List.mem_cons_self _ _)
    have hcys : c ∉ ys := fun h => hc (List.mem_cons_of_mem _ h)
    simp only [setInsert]
    split_ifs with h1 h2
    · exact List.Perm.refl _
    · exact (List.Perm.cons y (ih hcys)).trans (List.Perm.swap _ _ _)
    · exact absurd (clientEq_of_not_lt h1 h2) hcy

/-- Inserting a client whose name is fresh keeps the name list
duplicate-free. -/
theorem nodup_setInsert_names {c : Client} {l : List Client}
    (hl : (namesOf l).Nodup) (hc : c.name ∉ namesOf l) :
    (namesOf (setInsert c l)).Nodup := by
  have hnm : c ∉ l := fun h => hc (List.mem_map_of_mem _ h)
  have hperm : List.Perm (namesOf (setInsert c l)) (c.name :: namesOf l) :=
    (setInsert_perm_of_not_mem hnm).map _
  exact hperm.nodup_iff.mpr (List.nodup_cons.mpr ⟨hc, hl⟩)

/-- What a successful `find` returns: a member carrying the searched
name. -/
theorem findFirstName_some {n : String} {l : List Client} {c : Client}
    (h : findFirstName n l = some c) : c ∈ l ∧ c.name = n := by
  unfold findFirstName at h
  refine ⟨List.mem_of_find?_eq_some h, ?_⟩
  have := List.find?_some h
  simpa using this

/-- What a failed `find` means: no member carries the name. -/
theorem findFirstName_none {n : String} {l : List Client}
    (h : findFirstName n l = none) : ∀ x ∈ l, ¬ x.name = n := by
  unfold findFirstName at h
  rw [List.find?_eq_none] at h
  intro x hx
  simpa using h x hx

/-- `find` on a list whose only element named `n` is `c` returns `c`. -/
theorem findFirstName_unique {n : String} {c : Client} :
    ∀ {l : List Client}, c ∈ l → c.name = n → (∀ x ∈ l, x.name = n → x = c) →
      findFirstName n l = some c := by
  intro l
  induction l with
  | nil => intro hmem; simp at hmem
  | cons y ys ih =>
    intro hmem hname huniq
    unfold findFirstName
    rw [List.find?_cons]
    by_cases hy : y.name = n
    · have : y = c := huniq y (List.mem_cons_self _ _) hy
      simp [hy, this, hname]
    · have hyn : (decide (y.name = n)) = false := by simp [hy]
      rw [hyn]
      have hcy : c ∈ ys := by
        rcases List.mem_cons.mp hmem with rfl | h
        · exact absurd hname hy
        · exact h
      exact ih hcy hname (fun x hx hxn => huniq x (List.mem_cons_of_mem _ hx) hxn)

/-- The share computation ignores the stored client set. -/
theorem calculateShare_set_clients (u : SorterState) (L : List Client) (m : String) :
    DRFSorter.calculateShare { u with clients := L } m = DRFSorter.calculateShare u m :=
  rfl

/-- `update n` restores share consistency: with duplicate-free names
and every client other than `n` consistent, every client of the
updated state is consistent, and the names stay duplicate-free. -/
theorem update_repairs (u : SorterState) (n : String)
    (hnod : (namesOf u.clients).Nodup)
    (hcons : ∀ x ∈ u.clients, ¬ x.name = n → x.share = DRFSorter.calculateShare u x.name) :
    (namesOf (DRFSorter.update u n).clients).Nodup ∧
      ShareConsistent (DRFSorter.update u n) := by
  unfold DRFSorter.update
  cases hf : findFirstName n u.clients with
  | none =>
    refine ⟨hnod, ?_⟩
    intro c hc
    exact hcons c hc (findFirstName_none hf c hc)
  | some c =>
    obtain ⟨hcm, hcn⟩ := findFirstName_some hf
    dsimp only
    constructor
    · refine nodup_setInsert_names ?_ ?_
      · exact hnod.sublist ((eraseFirstName_sublist n u.clients).map _)
      · intro hmm
        rcases List.mem_map.mp hmm with ⟨x, hx, hxn⟩
        obtain ⟨_, hxne⟩ := mem_eraseFirstName_nodup hnod hx
        have : x.name = n := by simpa [hcn] using hxn
        exact hxne this
    · intro x hx
      rcases mem_setInsert hx with rfl | hxE
      · dsimp only
        show DRFSorter.calculateShare u n = DRFSorter.calculateShare u c.name
        rw [hcn]
      · obtain ⟨hxm, hxne⟩ := mem_eraseFirstName_nodup hnod hxE
        show x.share = DRFSorter.calculateShare u x.name
        exact hcons x hxm hxne

/-- The counter-bump step keeps client names duplicate-free. -/
theorem bumpCounter_nodup {s : SorterState} (hn : (namesOf s.clients).Nodup) (n : String) :
    (namesOf (DRFSorter.bumpCounter s n).clients).Nodup := by
  unfold DRFSorter.bumpCounter
  cases hf : findFirstName n s.clients with
  | none => exact hn
  | some c =>
    obtain ⟨hcm, hcn⟩ := findFirstName_some hf
    dsimp only
    refine nodup_setInsert_names ?_ ?_
    · exact hn.sublist ((eraseFirstName_sublist n s.clients).map _)
    · intro hmm
      rcases List.mem_map.mp hmm with ⟨x, hx, hxn⟩
      obtain ⟨_, hxne⟩ := mem_eraseFirstName_nodup hn hx
      have : x.name = n := by simpa [hcn] using hxn
      exact hxne this

/-- Core of the C4 step: in a state whose allocations map is that of
`s` overwritten at key `n`, whose other fields match `s`, and whose
clients not named `n` come from `s`, the trailing `update n` makes
every stored share agree with a recomputation. -/
theorem C4_core (s u : SorterState) (n : String) (V : Resources)
    (huc : (namesOf u.clients).Nodup)
    (hucmem : ∀ x ∈ u.clients, ¬ x.name = n → x ∈ s.clients)
    (hall : u.allocations = assocSet s.allocations n V)
    (hw : u.weights = s.weights)
    (hr : u.resources = s.resources)
    (hc : ShareConsistent s) :
    (namesOf (DRFSorter.update u n).clients).Nodup ∧
      ShareConsistent (DRFSorter.update u n) := by
  refine update_repairs u n huc ?_
  intro x hx hxn
  rw [hc x (hucmem x hx hxn)]
  refine (calculateShare_congr u s x.name ?_ ?_ hr).symm
  · unfold DRFSorter.allocOf
    rw [hall]
    exact assocGetD_set_ne hxn V []
  · unfold DRFSorter.weightOf
    rw [hw]

/-- One `allocated`/`unallocated` call on a clean, duplicate-free,
share-consistent state yields a clean, duplicate-free,
share-consistent state. -/
theorem C4_step (s : SorterState) (op : DRFSorter.UOp)
    (hd : s.dirty = false) (hn : (namesOf s.clients).Nodup) (hc : ShareConsistent s) :
    (DRFSorter.applyUOp s op).dirty = false ∧
      (namesOf (DRFSorter.applyUOp s op).clients).Nodup ∧
      ShareConsistent (DRFSorter.applyUOp s op) := by
  cases op with
  | alloc n rs =>
    have hbf := bumpCounter_fields s n
    have hred : DRFSorter.applyUOp s (.alloc n rs) =
        DRFSorter.update { DRFSorter.bumpCounter s n with
          allocations := assocUpd (DRFSorter.bumpCounter s n).allocations n []
            (fun old => old.add rs) } n := by
      show DRFSorter.allocated s n rs = _
      unfold DRFSorter.allocated
      dsimp only
      rw [if_neg]
      simp [hbf.2.2.2, hd]
    rw [hred]
    have hcore := C4_core s
      { DRFSorter.bumpCounter s n with
        allocations := assocUpd (DRFSorter.bumpCounter s n).allocations n []
          (fun old => old.add rs) } n
      ((assocGetD s.allocations n []).add rs)
      ?_ ?_ ?_ ?_ ?_ hc
    · refine ⟨?_, hcore.1, hcore.2⟩
      rw [(update_fields _ n).2.2.2]
      show (DRFSorter.bumpCounter s n).dirty = false
      rw [hbf.2.2.2]
      exact hd
    · exact bumpCounter_nodup hn n
    · intro x hx hxn
      show x ∈ s.clients
      revert hx
      show x ∈ (DRFSorter.bumpCounter s n).clients → x ∈ s.clients
      unfold DRFSorter.bumpCounter
      cases hf : findFirstName n s.clients with
      | none => exact fun h => h
      | some c =>
        obtain ⟨hcm, hcn⟩ := findFirstName_some hf
        dsimp only
        intro hx
        rcases mem_setInsert hx with rfl | hxE
        · exact absurd (by simpa using hcn) hxn
        · exact mem_of_mem_eraseFirstName hxE
    · show assocUpd (DRFSorter.bumpCounter s n).allocations n [] (fun old => old.add rs) = _
      rw [hbf.1]
      rfl
    · exact hbf.2.1
    · exact hbf.2.2.1
  | unalloc n rs =>
    have hred : DRFSorter.applyUOp s (.unalloc n rs) =
        DRFSorter.update { s with
          allocations := assocUpd s.allocations n [] (fun old => old.sub rs) } n := by
      show DRFSorter.unallocated s n rs = _
      unfold DRFSorter.unallocated
      dsimp only
      rw [if_neg]
      simp [hd]
    rw [hred]
    have hcore := C4_core s
      { s with allocations := assocUpd s.allocations n [] (fun old => old.sub rs) } n
      ((assocGetD s.allocations n []).sub rs)
      hn (fun x hx _ => hx) rfl rfl rfl hc
    refine ⟨?_, hcore.1, hcore.2⟩
    rw [(update_fields _ n).2.2.2]
    exact hd

/-- The C4 properties propagate along any `allocated`/`unallocated`
sequence. -/
theorem C4_chain (ops : List DRFSorter.UOp) :
    ∀ s : SorterState, s.dirty = false → (namesOf s.clients).Nodup → ShareConsistent s →
      (DRFSorter.applyUOps s ops).dirty = false ∧
        (namesOf (DRFSorter.applyUOps s ops).clients).Nodup ∧
        ShareConsistent (DRFSorter.applyUOps s ops) := by
  induction ops with
  | nil => intro s hd hn hc; exact ⟨hd, hn, hc⟩
  | cons op rest ih =>
    intro s hd hn hc
    obtain ⟨h1, h2, h3⟩ := C4_step s op hd hn hc
    exact ih (DRFSorter.applyUOp s op) h1 h2 h3

/-- Claim C4: starting from a clean sorter state (no global recompute
pending), with duplicate-free client names and every stored share equal
to its from-scratch recomputation, any sequence of per-client
`allocated`/`unallocated` updates with no intervening pool change
leaves every stored share equal to the share a full from-scratch
recomputation (the dirty path of `sort()`) would compute over the same
final allocations and total pool. -/
theorem C4_incremental_update_equivalence (s : SorterState) (ops : List DRFSorter.UOp)
    (hd : s.dirty = false) (hn : (namesOf s.clients).Nodup) (hc : ShareConsistent s) :
    ShareConsistent (DRFSorter.applyUOps s ops) :=
  (C4_chain ops s hd hn hc).2.2

/-- Witness for C4: a clean single-client state with pool cpus:2 to
which cpus:1 is allocated. -/
theorem C4_incremental_update_equivalence_witness :
    c4WitnessState.dirty = false ∧ (namesOf c4WitnessState.clients).Nodup ∧
      ShareConsistent c4WitnessState ∧
      ShareConsistent (DRFSorter.applyUOps c4WitnessState [.alloc "a" [cpusRes 1]]) := by
  have hsc : ShareConsistent c4WitnessState := by
    intro c hcm
    simp only [c4WitnessState, List.mem_singleton] at hcm
    subst hcm
    simp [DRFSorter.calculateShare, DRFSorter.allocOf, DRFSorter.weightOf, assocGetD,
      Resources.getScalar, Resources.scalarValuesOf, c4WitnessState, cpusRes, List.find?,
      show (0:ℚ) < 2 from by norm_num]
  exact ⟨rfl, by decide, hsc,
    C4_incremental_update_equivalence c4WitnessState [.alloc "a" [cpusRes 1]] rfl
      (by decide) hsc⟩

/-- Characterization of the capacity-heuristic loop: it succeeds
exactly when some non-empty prefix of the active agents' accumulated
unreserved resources, on top of the accumulator, contains the total
quota. -/
theorem capacityHeuristicLoop_none_iff (tq : SRes) :
    ∀ (agents : List Agent) (acc : SRes),
      (capacityHeuristicLoop tq agents acc = none ↔
        ∃ k < (activeUnreservedList agents).length,
          SRes.contains (acc ++ ((activeUnreservedList agents).take (k + 1)).join) tq) := by
  intro agents
  induction agents with
  | nil =>
    intro acc
    simp [capacityHeuristicLoop, activeUnreservedList, insufficientCapacityMsg]
  | cons a rest ih =>
    intro acc
    by_cases hact : a.connected = true ∧ a.active = true
    · have hfilter : activeUnreservedList (a :: rest) =
          unreservedOf a.info :: activeUnreservedList rest := by
        simp [activeUnreservedList, List.filter_cons, hact.1, hact.2]
      unfold capacityHeuristicLoop
      rw [if_neg (by simp [hact.1, hact.2]), hfilter]
      dsimp only
      split_ifs with hcont
      · constructor
        · intro _
          refine ⟨0, by simp, ?_⟩
          simpa [List.append_assoc] using hcont
        · intro _; rfl
      · rw [ih (acc ++ unreservedOf a.info)]
        constructor
        · rintro ⟨k, hk, hc⟩
          refine ⟨k + 1, by simpa using Nat.succ_lt_succ hk, ?_⟩
          simpa [List.append_assoc] using hc
        · rintro ⟨k, hk, hc⟩
          cases k with
          | zero =>
            exfalso
            refine hcont ?_
            simpa [List.append_assoc] using hc
          | succ k' =>
            refine ⟨k', by simpa using Nat.lt_of_succ_lt_succ hk, ?_⟩
            simpa [List.append_assoc] using hc
    · have hfilter : activeUnreservedList (a :: rest) = activeUnreservedList rest := by
        rcases Decidable.not_and_iff_or_not.mp hact with h | h
        · simp [activeUnreservedList, List.filter_cons, Bool.and_eq_true, h]
        · simp [activeUnreservedList, List.filter_cons, Bool.and_eq_true, h]
      unfold capacityHeuristicLoop
      rw [if_pos (by simpa using hact), hfilter]
      exact ih acc

/-- The loop either succeeds or reports the insufficient-capacity
error. -/
theorem capacityHeuristicLoop_result (tq : SRes) :
    ∀ (agents : List Agent) (acc : SRes),
      capacityHeuristicLoop tq agents acc = none ∨
        capacityHeuristicLoop tq agents acc = some insufficientCapacityMsg := by
  intro agents
  induction agents with
  | nil => intro acc; right; rfl
  | cons a rest ih =>
    intro acc
    unfold capacityHeuristicLoop
    split_ifs with h1
    · dsimp only
      split_ifs with h2
      · left; rfl
      · exact ih (acc ++ unreservedOf a.info)
    · exact ih acc

/-- Shared characterization of `capacityHeuristic` success. -/
theorem capacityHeuristic_none_iff (g : SRes) (st : QuotaClusterState) :
    capacityHeuristic g st = none ↔
      ∃ k < (activeUnreserved st).length,
        SRes.contains (((activeUnreserved st).take (k + 1)).join) (totalQuota g st) := by
  unfold capacityHeuristic activeUnreserved
  rw [capacityHeuristicLoop_none_iff (totalQuota g st) st.agents []]
  simp

/-- Claim C2: `capacityHeuristic(request)` sums the request's guarantee
with all existing quota guarantees into `totalQuota`, then walks the
registered agents skipping any that is not both connected and active,
accumulating each remaining agent's unreserved static resources; it
succeeds exactly when some partial accumulation (a non-empty prefix of
the active agents' unreserved resources) contains `totalQuota`, and
otherwise returns the insufficient-capacity error. -/
theorem C2_capacityHeuristic_spec (g : SRes) (st : QuotaClusterState) :
    (capacityHeuristic g st = none ↔
      ∃ k < (activeUnreserved st).length,
        SRes.contains (((activeUnreserved st).take (k + 1)).join) (totalQuota g st)) ∧
      (capacityHeuristic g st = none ∨
        capacityHeuristic g st = some insufficientCapacityMsg) :=
  ⟨capacityHeuristic_none_iff g st,
    capacityHeuristicLoop_result (totalQuota g st) st.agents []⟩

/-- The rescind loop's guarantee: when it stops, either the rescinded
resources contain the guarantee, or every connected and active agent of
the remaining state has no outstanding offers left. -/
theorem rescindLoop_post (g : SRes) (numFiR : Nat) :
    ∀ (agents : List OfferAgent) (resc : SRes) (visited : Nat),
      SRes.contains (rescindLoop g numFiR agents resc visited).1 g ∨
        ∀ a ∈ (rescindLoop g numFiR agents resc visited).2,
          a.connected = true → a.active = true → a.offers = [] := by
  intro agents
  induction agents with
  | nil =>
    intro resc visited
    right
    intro a ha
    simp [rescindLoop] at ha
  | cons a rest ih =>
    intro resc visited
    unfold rescindLoop
    split_ifs with hbreak hact he
    · left
      exact hbreak.1
    · dsimp only
      rcases ih (a.offers.foldl (fun x y => x ++ y) resc) visited with h | h
      · left; exact h
      · right
        intro b hb hc ha2
        rcases List.mem_cons.mp hb with rfl | hb'
        · rfl
        · exact h b hb' hc ha2
    · dsimp only
      rcases ih (a.offers.foldl (fun x y => x ++ y) resc) (visited + 1) with h | h
      · left; exact h
      · right
        intro b hb hc ha2
        rcases List.mem_cons.mp hb with rfl | hb'
        · rfl
        · exact h b hb' hc ha2
    · dsimp only
      rcases ih resc visited with h | h
      · left; exact h
      · right
        intro b hb hc ha2
        rcases List.mem_cons.mp hb with rfl | hb'
        · exact absurd ⟨hc, ha2⟩ hact
        · exact h b hb' hc ha2

/-- Claim C3: after `rescindOffers(request)` finishes, either the
accumulated rescinded resources contain the request's guarantee, or
the loop ran out of agents and every connected and active agent has had
all of its outstanding offers rescinded. -/
theorem C3_rescindOffers_sufficiency (g : SRes) (fws : List RoleFramework)
    (agents : List OfferAgent) :
    SRes.contains (rescindOffers g fws agents).1 g ∨
      ∀ a ∈ (rescindOffers g fws agents).2,
        a.connected = true → a.active = true → a.offers = [] := by
  unfold rescindOffers
  exact rescindLoop_post g _ agents [] 0

/-- Amounts add along concatenation. -/
theorem amount_append (a b : SRes) (n : String) :
    SRes.amount (a ++ b) n = SRes.amount a n + SRes.amount b n := by
  unfold SRes.amount
  rw [List.filter_append, List.map_append, List.sum_append]

/-- Entrywise non-negative collections have non-negative amounts. -/
theorem amount_nonneg {r : SRes} (h : ∀ p ∈ r, 0 ≤ p.2) (n : String) :
    0 ≤ SRes.amount r n := by
  unfold SRes.amount
  refine List.sum_nonneg ?_
  intro x hx
  rcases List.mem_map.mp hx with ⟨p, hp, rfl⟩
  exact h p (List.mem_of_mem_filter hp)

/-- A kind that does not occur has amount zero. -/
theorem amount_of_not_mem_names {r : SRes} {n : String} (h : n ∉ SRes.names r) :
    SRes.amount r n = 0 := by
  unfold SRes.amount
  have hfil : r.filter (fun p => p.1 = n) = [] := by
    rw [List.filter_eq_nil]
    intro p hp
    simp only [decide_eq_true_eq]
    intro hpn
    exact h (hpn ▸ List.mem_map_of_mem _ hp)
  rw [hfil]
  rfl

/-- Amount of a left fold of concatenations. -/
theorem amount_foldl_append (qs : List SRes) :
    ∀ (a : SRes) (n : String),
      SRes.amount (qs.foldl (fun x y => x ++ y) a) n =
        SRes.amount a n + (qs.map (fun q => SRes.amount q n)).sum := by
  induction qs with
  | nil => intro a n; simp
  | cons q rest ih =>
    intro a n
    simp only [List.foldl_cons, List.map_cons, List.sum_cons]
    rw [ih (a ++ q) n, amount_append]
    ring

/-- Names of a left fold of concatenations. -/
theorem names_foldl_append (qs : List SRes) :
    ∀ (a : SRes), SRes.names (qs.foldl (fun x y => x ++ y) a) =
      SRes.names a ++ (qs.map SRes.names).join := by
  induction qs with
  | nil => intro a; simp
  | cons q rest ih =>
    intro a
    simp only [List.foldl_cons, List.map_cons, List.join]
    rw [ih (a ++ q)]
    unfold SRes.names
    simp [List.map_append, List.append_assoc]

/-- Claim C8: capacity-heuristic monotonicity. Against a fixed cluster
state (agents with non-negative resources, existing quotas with
non-negative guarantees), if the heuristic passes for a guarantee `G`,
it also passes for every guarantee `G'` with non-negative entries that
`G` contains. -/
theorem C8_capacityHeuristic_monotone (st : QuotaClusterState) (G G' : SRes)
    (hGpos : ∀ p ∈ G, 0 ≤ p.2)
    (hapos : ∀ a ∈ st.agents, ∀ r ∈ a.info, 0 ≤ r.value)
    (hsub : SRes.contains G G')
    (hsucc : capacityHeuristic G st = none) :
    capacityHeuristic G' st = none := by
  rw [capacityHeuristic_none_iff] at hsucc ⊢
  obtain ⟨k, hk, hcont⟩ := hsucc
  refine ⟨k, hk, ?_⟩
  have hPpos : ∀ p ∈ ((activeUnreserved st).take (k + 1)).join, 0 ≤ p.2 := by
    intro p hp
    rcases List.mem_join.mp hp with ⟨q, hq, hpq⟩
    have hq' : q ∈ activeUnreserved st := List.take_subset _ _ hq
    unfold activeUnreserved activeUnreservedList at hq'
    rcases List.mem_map.mp hq' with ⟨ag, hag, rfl⟩
    unfold unreservedOf at hpq
    rcases List.mem_map.mp hpq with ⟨r, hr, rfl⟩
    exact hapos ag (List.mem_of_mem_filter hag) r (List.mem_of_mem_filter hr)
  intro n hn
  have htqG' : SRes.amount (totalQuota G' st) n =
      SRes.amount G' n + (st.quotaGuarantees.map (fun q => SRes.amount q n)).sum :=
    amount_foldl_append st.quotaGuarantees G' n
  have htqG : SRes.amount (totalQuota G st) n =
      SRes.amount G n + (st.quotaGuarantees.map (fun q => SRes.amount q n)).sum :=
    amount_foldl_append st.quotaGuarantees G n
  have hG'G : SRes.amount G' n ≤ SRes.amount G n := by
    by_cases hng : n ∈ SRes.names G'
    · exact hsub n hng
    · rw [amount_of_not_mem_names hng]
      exact amount_nonneg hGpos n
  by_cases hmem : n ∈ SRes.names (totalQuota G st)
  · calc SRes.amount (totalQuota G' st) n
        = SRes.amount G' n + (st.quotaGuarantees.map (fun q => SRes.amount q n)).sum :=
          htqG'
      _ ≤ SRes.amount G n + (st.quotaGuarantees.map (fun q => SRes.amount q n)).sum :=
          add_le_add_right hG'G _
      _ = SRes.amount (totalQuota G st) n := htqG.symm
      _ ≤ SRes.amount (((activeUnreserved st).take (k + 1)).join) n := hcont n hmem
  · have hnames : SRes.names (totalQuota G st) =
        SRes.names G ++ (st.quotaGuarantees.map SRes.names).join :=
      names_foldl_append st.quotaGuarantees G
    rw [hnames] at hmem
    have hnG : n ∉ SRes.names G := fun h => hmem (List.mem_append.mpr (Or.inl h))
    have hnqs : ∀ q ∈ st.quotaGuarantees, n ∉ SRes.names q := by
      intro q hq hnq
      exact hmem (List.mem_append.mpr (Or.inr
        (List.mem_join.mpr ⟨SRes.names q, List.mem_map_of_mem _ hq, hnq⟩)))
    have hSzero : (st.quotaGuarantees.map (fun q => SRes.amount q n)).sum = 0 := by
      refine List.sum_eq_zero ?_
      intro x hx
      rcases List.mem_map.mp hx with ⟨q, hq, rfl⟩
      exact amount_of_not_mem_names (hnqs q hq)
    have hG'le : SRes.amount G' n ≤ 0 := by
      rw [amount_of_not_mem_names hnG] at hG'G
      exact hG'G
    rw [htqG', hSzero, add_zero]
    exact le_trans hG'le (amount_nonneg hPpos n)

/-- Witness for C8: the one-agent cpus:2 cluster, guarantee cpus:2
shrunk to the empty guarantee. -/
theorem C8_capacityHeuristic_monotone_witness :
    (∀ p ∈ [("cpus", (2:ℚ))], 0 ≤ p.2) ∧
      (∀ a ∈ c8Cluster.agents, ∀ r ∈ a.info, 0 ≤ r.value) ∧
      SRes.contains [("cpus", (2:ℚ))] [] ∧
      capacityHeuristic [("cpus", (2:ℚ))] c8Cluster = none ∧
      capacityHeuristic [] c8Cluster = none := by
  have hsucc : capacityHeuristic [("cpus", (2:ℚ))] c8Cluster = none := by
    refine (capacityHeuristic_none_iff _ _).mpr ⟨0, by simp [c8Cluster, activeUnreserved,
      activeUnreservedList, unreservedOf], ?_⟩
    intro n hn
    simp only [c8Cluster, activeUnreserved, activeUnreservedList, unreservedOf, totalQuota,
      List.foldl_nil, SRes.names, List.map_cons, List.map_nil, List.mem_singleton] at hn ⊢
    subst hn
    simp [SRes.amount, List.filter, List.take, List.join]
  refine ⟨?_, ?_, ?_, hsucc, ?_⟩
  · intro p hp
    simp only [List.mem_singleton] at hp
    subst hp
    norm_num
  · intro a ha r hr
    simp only [c8Cluster, List.mem_singleton] at ha
    subst ha
    simp only [List.mem_singleton] at hr
    subst hr
    norm_num
  · intro n hn
    simp [SRes.names] at hn
  · exact C8_capacityHeuristic_monotone c8Cluster [("cpus", (2:ℚ))] []
      (by intro p hp; simp only [List.mem_singleton] at hp; subst hp; norm_num)
      (by intro a ha r hr
          simp only [c8Cluster, List.mem_singleton] at ha
          subst ha
          simp only [List.mem_singleton] at hr
          subst hr
          norm_num)
      (by intro n hn; simp [SRes.names] at hn)
      hsucc

/-- Claim C6 evaluated at the failing input: on a list holding the
single well-formed resource cpus:1 (scalar, role "role1", no
reservation/disk/revocable metadata), `createQuotaInfo` succeeds and
produces the QuotaInfo with role "role1" and the per-resource role
cleared — but `quota::validation::quotaInfo` then REJECTS that very
QuotaInfo with the "Quota request without role specified" error,
because its role checks run against the already-stripped resources.
The claim (and the repository's own tests, e.g.
`MasterQuotaTest.AvailableResourcesSingleAgent`, which expect the set
flow to succeed) say validation must accept it. -/
theorem C6_validation_rejects_created_quotaInfo :
    createQuotaInfo [sampleQuotaResource] =
        Except.ok { role := "role1", guarantee := [sampleQuotaResource.clearRole] } ∧
      quotaInfoValidate { role := "role1", guarantee := [sampleQuotaResource.clearRole] } =
        Except.error errNoRole := by
  constructor
  · rfl
  · rfl

end MesosSpec
